import Mathlib

/-!
Verification development for `atis_decoder.c`, an ATIS (ITU-R M.493 DSC)
decoder: per-bit FSK frequency discrimination (Goertzel), a 256-slot bit
ring buffer, a HUNT/LOCKED synchronization state machine, 10-bit symbol
decoding with a 3-bit zero-count check field, an alternating read/skip
time-diversity collector, and 5-digit-pair emission.

The definitions below are a shallow embedding of the C source: machine
integers become `Nat` (with explicit `% 256` where the C code indexes the
ring modulo its size), the `static` ring array and the local `data[16]`
array become total functions `Nat → Nat`, and the two emission channels
(stdout line, UDP datagram) become an `Emission` record appended to an
output list.  `while` loops become fuel-structured recursion where the C
loop has an evident decreasing measure (the ring occupancy count).
-/

namespace ATIS

/-- Population count of a 32-bit unsigned value, as used by the C code's
call to a 32-bit popcount builtin (the argument is always masked to 7 bits
at the call site). -/
def popcount (n : Nat) : Nat :=
  (List.range 32).foldl (fun acc i => acc + n / 2 ^ i % 2) 0

/-- The reserved DX phasing symbol value (`SYM_DX` in the C source). -/
def SYM_DX : Nat := 125

/-- Embedding of `sym_decode` (atis_decoder.c lines 45-52): assemble the
7 data bits least-significant-bit first by or-ing shifted bits, compute
the expected zero count, assemble the 3 check bits most-significant-bit
first, and succeed with the data value iff the check matches.  Failure
(`return -1` in C) becomes `none`. -/
def sym_decode (b : List Nat) : Option Nat :=
  let v := (List.range 7).foldl (fun acc i => acc ||| (b.getD i 0 <<< i)) 0
  let zeros := 7 - popcount (v &&& 127)
  let chk := (b.getD 7 0 <<< 2) ||| (b.getD 8 0 <<< 1) ||| b.getD 9 0
  if chk = zeros then some v else none

/-- Modelled from the spec: `encode(v)` is absent from the C source (the
spec states it is "required only for test fixtures, not for production
decoding").  Following the spec's words: construct the 7 data bits (bit
`i` contributes weight `2^i`, least-significant-bit first), compute
`zeros = 7 - popcount(v)`, and append the 3-bit check field holding
`zeros` most-significant-bit first. -/
def sym_encode (v : Nat) : List Nat :=
  ((List.range 7).map fun i => v / 2 ^ i % 2) ++
    [(7 - popcount v) / 4 % 2, (7 - popcount v) / 2 % 2, (7 - popcount v) % 2]

/-- Embedding of `goertzel` (lines 34-42) over exact rationals standing
for the C floats: the single-bin resonator recurrence followed by the
magnitude-squared combination.  The coefficient `c` stands for the value
`2*cos(2*pi*hz/SAMPLE_RATE)` computed by the C code; it is kept as a
parameter because it is transcendental. -/
def goertzel (c : ℚ) (s : List Int) : ℚ :=
  let p := s.foldl (fun (q : ℚ × ℚ) x => (c * q.1 - q.2 + (x : ℚ), q.1)) (0, 0)
  p.1 * p.1 + p.2 * p.2 - p.1 * p.2 * c

/-- Embedding of the bit decision in `main` (lines 100-101): 1 iff the
mark-frequency power estimate exceeds the space-frequency power
estimate. -/
def classifyBit (cMark cSpace : ℚ) (s : List Int) : Nat :=
  if goertzel cMark s > goertzel cSpace s then 1 else 0

/-- The two states of the synchronization tracker (`enum { HUNT, LOCKED }`).
HUNT is the spec's SEARCHING. -/
inductive Mode where
  | HUNT
  | LOCKED
deriving DecidableEq

/-- One successful decode's externally visible output: the stdout line
written by `fprintf` and the datagram payload passed to `udp_send`. -/
structure Emission where
  line : String
  dgram : String
deriving DecidableEq

/-- The decoder's mutable state in `main` plus the file-scope ring buffer
(lines 67-73, 87-92).  The C `uint8_t ring[256]` and the local
`int data[16]` are modelled as total functions from indices; `data` is
uninitialized in C, so its initial contents are a parameter (see
`initDec`). -/
structure Dec where
  ring : Nat → Nat
  rwr : Nat
  rrd : Nat
  rcnt : Nat
  mode : Mode
  sym_bit : Nat
  dataArr : Nat → Nat
  dcnt : Nat
  started : Bool
  parity : Nat
  out : List Emission

/-- Embedding of `rpush` (line 71): write at the wrap-around write cursor,
advance it, grow the occupancy count. -/
def rpush (st : Dec) (b : Nat) : Dec :=
  { st with
    ring := fun j => if j = st.rwr % 256 then b else st.ring j
    rwr := st.rwr + 1
    rcnt := st.rcnt + 1 }

/-- Embedding of `rpop` (line 72): read at the wrap-around read cursor,
advance it, shrink the occupancy count. -/
def rpop (st : Dec) : Nat × Dec :=
  (st.ring (st.rrd % 256),
   { st with rrd := st.rrd + 1, rcnt := st.rcnt - 1 })

/-- Embedding of `rpeek` (line 73): non-destructive read at offset `i`
from the read cursor. -/
def rpeek (st : Dec) (i : Nat) : Nat :=
  st.ring ((st.rrd + i) % 256)

/-- `n` consecutive `rpop` calls, returning the popped bits in order
(the C `for` loops at lines 110 and 129). -/
def popN : Nat → Dec → List Nat × Dec
  | 0, st => ([], st)
  | n + 1, st =>
    let r := rpop st
    let rest := popN n r.2
    (r.1 :: rest.1, rest.2)

/-- Rendering of one collected value by `snprintf(.., "%02d", ..)`:
decimal, zero-padded to at least two characters. -/
def twoDigit (n : Nat) : String :=
  if n < 10 then "0" ++ toString n else toString n

/-- The concatenation loop at lines 156-158: render the first five
collected values two digits each, in order. -/
def renderDigits (st : Dec) : String :=
  (List.range 5).foldl (fun acc i => acc ++ twoDigit (st.dataArr i)) ""

/-- The leading-zero strip at line 161: drop the first character iff the
rendered string is exactly 10 characters and starts with a zero digit. -/
def stripZero (s : String) : String :=
  if s.length = 10 ∧ s.get ⟨0⟩ = '0' then s.drop 1 else s

/-- Embedding of the collection step (lines 139-151): before the first
data symbol, values above 99 are ignored; the first value at most 99 sets
`started` and zeroes `parity`; then even `parity` is a READ (append when
the value is at most 99 and `dcnt < 16`), odd `parity` is a SKIP, and
`parity` is incremented unconditionally. -/
def collect (st : Dec) (v : Nat) : Dec :=
  if st.started = false ∧ 99 < v then st
  else
    let st1 := if st.started = false then { st with started := true, parity := 0 } else st
    let st2 :=
      if st1.parity % 2 = 0 then
        if v ≤ 99 ∧ st1.dcnt < 16 then
          { st1 with
            dataArr := fun j => if j = st1.dcnt then v else st1.dataArr j
            dcnt := st1.dcnt + 1 }
        else st1
      else st1
    { st2 with parity := st2.parity + 1 }

/-- Embedding of the emission block (lines 153-173): when exactly five
values have been collected, render, strip a leading zero from the
canonical 10-character form, emit the stdout line and the datagram, and
fall back to HUNT clearing `dcnt` and `started`. -/
def maybeEmit (st : Dec) : Dec :=
  if st.dcnt = 5 then
    let p := stripZero (renderDigits st)
    { st with
      out := st.out ++ [{ line := "ATIS: " ++ p ++ "\n", dgram := p ++ "\n" }]
      mode := Mode.HUNT
      dcnt := 0
      started := false }
  else st

/-- Fuel-structured embedding of the HUNT `while (rcnt >= 10)` loop
(lines 106-119).  Each iteration either locks (consuming ten bits) or
pops a single bit, so the occupancy count is a decreasing measure; the
loop is run with fuel `rcnt` in `huntLoop`, which the loop body never
exhausts early because every iteration consumes at least one bit. -/
def huntLoopF : Nat → Dec → Dec
  | 0, st => st
  | fuel + 1, st =>
    if 10 ≤ st.rcnt then
      let raw := (List.range 10).map (rpeek st)
      if sym_decode raw = some SYM_DX then
        let st1 := (popN 10 st).2
        { st1 with
          mode := Mode.LOCKED
          sym_bit := 0
          dcnt := 0
          started := false
          parity := 0 }
      else huntLoopF fuel (rpop st).2
    else st

/-- The HUNT scan for one newly pushed bit: run the while loop with fuel
equal to the current occupancy count. -/
def huntLoop (st : Dec) : Dec :=
  huntLoopF st.rcnt st

/-- Embedding of the LOCKED section of `main`'s read loop (lines 123-173),
applied to the post-push state: count bits within the current symbol; at
the tenth, pop the group and decode it; on failure fall back to HUNT
clearing `dcnt` and `started`; on success run the collector and the
emission check. -/
def lockedStep (st : Dec) : Dec :=
  let st1 := { st with sym_bit := st.sym_bit + 1 }
  if st1.sym_bit < 10 then st1
  else
    let st2 := { st1 with sym_bit := 0 }
    let pr := popN 10 st2
    match sym_decode pr.1 with
    | none => { pr.2 with mode := Mode.HUNT, dcnt := 0, started := false }
    | some v => maybeEmit (collect pr.2 v)

/-- Embedding of one iteration of the per-bit part of `main`'s read loop
(lines 102-173): push the classified bit, then dispatch on the mode.  In
HUNT, run the sliding-window scan; in LOCKED, run the symbol
accumulation section. -/
def decStep (st : Dec) (bit : Nat) : Dec :=
  let st := rpush st bit
  match st.mode with
  | Mode.HUNT => huntLoop st
  | Mode.LOCKED => lockedStep st

/-- The initial decoder state: the file-scope ring and cursors are
zero-initialized, `main`'s counters start at zero in HUNT; the local
`data[16]` array is uninitialized in C, so its initial contents `d0` are
a parameter. -/
def initDec (d0 : Nat → Nat) : Dec :=
  { ring := fun _ => 0
    rwr := 0
    rrd := 0
    rcnt := 0
    mode := Mode.HUNT
    sym_bit := 0
    dataArr := d0
    dcnt := 0
    started := false
    parity := 0
    out := [] }

/-- Run the decoder over a list of already-classified bits. -/
def runBits (d0 : Nat → Nat) (bits : List Nat) : Dec :=
  bits.foldl decStep (initDec d0)

/-- The sample-accumulation layer of `main`'s read loop (lines 84-98):
samples fill a 20-slot window; each full window is classified into one
bit and handed to the decoder, and the window restarts. -/
structure Top where
  sb : List Int
  dec : Dec

/-- One incoming audio sample (lines 95-102). -/
def sampleStep (cMark cSpace : ℚ) (t : Top) (s : Int) : Top :=
  let sb := t.sb ++ [s]
  if sb.length < 20 then { t with sb := sb }
  else { sb := [], dec := decStep t.dec (classifyBit cMark cSpace sb) }

/-- Run the whole program over a finite sample stream (the `fread` loop),
starting from an empty window and the initial decoder state. -/
def runSamples (cMark cSpace : ℚ) (d0 : Nat → Nat) (samples : List Int) : Top :=
  samples.foldl (sampleStep cMark cSpace) { sb := [], dec := initDec d0 }

/-- The not-yet-consumed ring contents, oldest first: the abstract queue
the ring buffer represents. -/
def ringList (st : Dec) : List Nat :=
  (List.range st.rcnt).map (rpeek st)

/-- Specification model of the SEARCHING scan, following the spec's words
(section 4.3): while at least ten bits remain, decode the oldest ten
without removing them; on a phasing-symbol hit consume exactly those ten
and report a lock, otherwise discard the single oldest bit and retry. -/
def huntSpec (q : List Nat) : List Nat × Bool :=
  if _h : 10 ≤ q.length then
    if sym_decode (q.take 10) = some SYM_DX then (q.drop 10, true)
    else huntSpec q.tail
  else (q, false)
termination_by q.length
decreasing_by
  simp [List.length_tail]
  omega

/-- The reachable-state invariant of the decoder: the write cursor leads
the read cursor by exactly the occupancy count, at most nine bits remain
buffered between steps, while LOCKED the buffered bits are exactly the
bits of the partially accumulated symbol, at most four values are
collected between steps, and the upper slots of the collection array are
never written. -/
def Inv (d0 : Nat → Nat) (st : Dec) : Prop :=
  st.rwr = st.rrd + st.rcnt ∧
  st.rcnt ≤ 9 ∧
  (st.mode = Mode.LOCKED → st.sym_bit ≤ 9 ∧ st.rcnt = st.sym_bit) ∧
  st.dcnt ≤ 4 ∧
  (∀ j, 5 ≤ j → st.dataArr j = d0 j)

/-- The 10-bit group encoding the DX phasing symbol 125
(data bits of 125 least-significant-bit first, then the check field 001
for its single zero data bit, most-significant-bit first). -/
def dxGroup : List Nat := [1, 0, 1, 1, 1, 1, 1, 0, 0, 1]

/-- A valid 10-bit group encoding the data value 1 (check field 110 for
six zero data bits). -/
def groupOne : List Nat := [1, 0, 0, 0, 0, 0, 0, 1, 1, 0]

/-- A valid 10-bit group encoding the data value 23. -/
def group23 : List Nat := [1, 1, 1, 0, 1, 0, 0, 0, 1, 1]

/-- A valid 10-bit group encoding the data value 45. -/
def group45 : List Nat := [1, 0, 1, 1, 0, 1, 0, 0, 1, 1]

/-- A valid 10-bit group encoding the data value 67. -/
def group67 : List Nat := [1, 1, 0, 0, 0, 0, 1, 1, 0, 0]

/-- A valid 10-bit group encoding the data value 89. -/
def group89 : List Nat := [1, 0, 0, 1, 1, 0, 1, 0, 1, 1]

/-- An all-zero 10-bit group: its data value is 0 with seven zero data
bits, but its check field is 0, so decoding fails. -/
def badGroup : List Nat := List.replicate 10 0

/-- A bit stream that locks on the phasing symbol, accepts the data
value 1 as the first READ (making the alternation counter 1), and then
delivers an invalid group while LOCKED. -/
def exC4 : List Nat := dxGroup ++ groupOne ++ badGroup

/-- A bit stream that locks on the phasing symbol and then delivers nine
valid symbols 1,1,23,1,45,1,67,1,89 so that the alternating collector
reads 1,23,45,67,89 (skipping every second symbol) and emits once. -/
def exC5 : List Nat :=
  dxGroup ++ groupOne ++ groupOne ++ group23 ++ groupOne ++ group45 ++
    groupOne ++ group67 ++ groupOne ++ group89

/-! Ring buffer / abstract queue correspondence. -/

theorem ringList_length (st : Dec) : (ringList st).length = st.rcnt := by
  simp [ringList]

theorem ringList_rpop (st : Dec) : ringList (rpop st).2 = (ringList st).tail := by
  rcases h : st.rcnt with _ | k
  · simp [ringList, rpop, h]
  · simp only [ringList, rpop, h, Nat.add_sub_cancel, List.range_succ_eq_map,
      List.map_cons, List.tail_cons, List.map_map]
    apply List.map_congr_left
    intro i _
    simp only [Function.comp, rpeek]
    congr 1
    omega

theorem ringList_pop_cons (st : Dec) (h : 0 < st.rcnt) :
    ringList st = (rpop st).1 :: ringList (rpop st).2 := by
  rcases h' : st.rcnt with _ | k
  · omega
  · rw [ringList_rpop]
    simp only [ringList, h', List.range_succ_eq_map, List.map_cons, List.tail_cons]
    congr 1

theorem popN_snd (n : Nat) : ∀ st : Dec,
    (popN n st).2 = { st with rrd := st.rrd + n, rcnt := st.rcnt - n } := by
  induction n with
  | zero => intro st; simp [popN]
  | succ k ih =>
    intro st
    simp only [popN, rpop, ih]
    congr 1 <;> omega

theorem ringList_popN (n : Nat) : ∀ st : Dec,
    ringList (popN n st).2 = (ringList st).drop n := by
  induction n with
  | zero => intro st; simp [popN]
  | succ k ih =>
    intro st
    simp only [popN]
    rw [ih, ringList_rpop, ← List.drop_one, List.drop_drop, Nat.add_comm]

theorem popN_fst (n : Nat) : ∀ st : Dec, n ≤ st.rcnt →
    (popN n st).1 = (ringList st).take n := by
  induction n with
  | zero => intro st _; simp [popN]
  | succ k ih =>
    intro st h
    have h0 : 0 < st.rcnt := by omega
    have h1 : k ≤ (rpop st).2.rcnt := by simp [rpop]; omega
    simp only [popN, ih _ h1]
    rw [ringList_pop_cons st h0]
    simp

theorem ringList_rpush (st : Dec) (b : Nat)
    (hw : st.rwr = st.rrd + st.rcnt) (hc : st.rcnt < 256) :
    ringList (rpush st b) = ringList st ++ [b] := by
  simp only [ringList, rpush, List.range_succ, List.map_append, List.map_cons,
    List.map_nil]
  congr 1
  · apply List.map_congr_left
    intro i hi
    simp only [List.mem_range] at hi
    simp only [rpeek]
    rw [if_neg]
    omega
  · simp only [rpeek]
    rw [if_pos]
    omega

theorem rpeek_map_take (st : Dec) (h : 10 ≤ st.rcnt) :
    (List.range 10).map (rpeek st) = (ringList st).take 10 := by
  simp only [ringList, ← List.map_take, List.take_range]
  rw [min_eq_left h]

/-! Unfolding equations and basic facts about the SEARCHING scan model. -/

theorem huntSpec_short (q : List Nat) (h : q.length < 10) :
    huntSpec q = (q, false) := by
  rw [huntSpec]
  rw [dif_neg]
  omega

theorem huntSpec_lock (q : List Nat) (h : 10 ≤ q.length)
    (hd : sym_decode (q.take 10) = some SYM_DX) :
    huntSpec q = (q.drop 10, true) := by
  rw [huntSpec, dif_pos h, if_pos hd]

theorem huntSpec_slide (q : List Nat) (h : 10 ≤ q.length)
    (hd : ¬ sym_decode (q.take 10) = some SYM_DX) :
    huntSpec q = huntSpec q.tail := by
  rw [huntSpec, dif_pos h, if_neg hd]

theorem huntSpec_no_lock_len (q : List Nat) :
    (huntSpec q).2 = false → (huntSpec q).1.length < 10 := by
  induction q using huntSpec.induct with
  | case1 q h hd =>
    rw [huntSpec_lock q h hd]
    intro hc
    simp at hc
  | case2 q h hd ih =>
    rw [huntSpec_slide q h hd]
    exact ih
  | case3 q h =>
    rw [huntSpec_short q (by omega)]
    intro _
    simpa using by omega

theorem huntSpec_lock_len (q : List Nat) :
    (huntSpec q).2 = true → (huntSpec q).1.length + 10 ≤ q.length := by
  induction q using huntSpec.induct with
  | case1 q h hd =>
    rw [huntSpec_lock q h hd]
    intro _
    simp
    omega
  | case2 q h hd ih =>
    rw [huntSpec_slide q h hd]
    intro hb
    have := ih hb
    have hlen : q.tail.length = q.length - 1 := by simp
    omega
  | case3 q h =>
    rw [huntSpec_short q (by omega)]
    intro hb
    simp at hb

/-! The HUNT scan loop refines the SEARCHING scan model. -/

theorem huntLoopF_refines (fuel : Nat) : ∀ st : Dec,
    st.rcnt ≤ fuel → st.rwr = st.rrd + st.rcnt →
    ringList (huntLoopF fuel st) = (huntSpec (ringList st)).1 ∧
    (huntLoopF fuel st).rwr = st.rwr ∧
    (huntLoopF fuel st).rwr = (huntLoopF fuel st).rrd + (huntLoopF fuel st).rcnt ∧
    (huntLoopF fuel st).ring = st.ring ∧
    (huntLoopF fuel st).out = st.out ∧
    (huntLoopF fuel st).dataArr = st.dataArr ∧
    ((huntSpec (ringList st)).2 = true →
      (huntLoopF fuel st).mode = Mode.LOCKED ∧ (huntLoopF fuel st).sym_bit = 0 ∧
      (huntLoopF fuel st).dcnt = 0 ∧ (huntLoopF fuel st).started = false ∧
      (huntLoopF fuel st).parity = 0) ∧
    ((huntSpec (ringList st)).2 = false →
      (huntLoopF fuel st).mode = st.mode ∧ (huntLoopF fuel st).sym_bit = st.sym_bit ∧
      (huntLoopF fuel st).dcnt = st.dcnt ∧ (huntLoopF fuel st).started = st.started ∧
      (huntLoopF fuel st).parity = st.parity) := by
  induction fuel with
  | zero =>
    intro st hf hw
    have h0 : st.rcnt = 0 := by omega
    have hq : (ringList st).length < 10 := by rw [ringList_length]; omega
    rw [huntSpec_short _ hq]
    simp [huntLoopF]
    exact hw
  | succ fuel ih =>
    intro st hf hw
    by_cases h10 : 10 ≤ st.rcnt
    · have hql : 10 ≤ (ringList st).length := by rw [ringList_length]; exact h10
      have hraw : (List.range 10).map (rpeek st) = (ringList st).take 10 :=
        rpeek_map_take st h10
      by_cases hd : sym_decode ((ringList st).take 10) = some SYM_DX
      · -- lock: consume exactly ten bits and reset every collection field
        rw [huntSpec_lock _ hql hd]
        have hstep : huntLoopF (fuel + 1) st =
            { (popN 10 st).2 with
              mode := Mode.LOCKED
              sym_bit := 0
              dcnt := 0
              started := false
              parity := 0 } := by
          rw [huntLoopF, if_pos h10, hraw, if_pos hd]
        rw [hstep, popN_snd]
        refine ⟨?_, rfl, by simp; omega, rfl, rfl, rfl, fun _ => by simp, fun hc => by simp at hc⟩
        have := ringList_popN 10 st
        rw [popN_snd] at this
        simpa using this
      · -- slide: discard the single oldest bit and retry
        rw [huntSpec_slide _ hql hd]
        have hstep : huntLoopF (fuel + 1) st = huntLoopF fuel (rpop st).2 := by
          rw [huntLoopF, if_pos h10, hraw, if_neg hd]
        have hc1 : (rpop st).2.rcnt ≤ fuel := by simp [rpop]; omega
        have hc2 : (rpop st).2.rwr = (rpop st).2.rrd + (rpop st).2.rcnt := by
          simp [rpop]; omega
        have htail : ringList (rpop st).2 = (ringList st).tail := ringList_rpop st
        obtain ⟨i1, i2, i3, i4, i5, i6, i7, i8⟩ := ih (rpop st).2 hc1 hc2
        rw [htail] at i1 i7 i8
        rw [hstep]
        exact ⟨i1, by rw [i2]; rfl, i3, by rw [i4]; rfl, by rw [i5]; rfl,
          by rw [i6]; rfl, i7, i8⟩
    · have hq : (ringList st).length < 10 := by rw [ringList_length]; omega
      rw [huntSpec_short _ hq]
      rw [huntLoopF, if_neg h10]
      exact ⟨rfl, rfl, hw, rfl, rfl, rfl, fun hc => by simp at hc, fun _ => ⟨rfl, rfl, rfl, rfl, rfl⟩⟩

/-! Field-preservation facts about the collector and the emission check. -/

theorem collect_fields (st : Dec) (v : Nat) :
    (collect st v).ring = st.ring ∧ (collect st v).rwr = st.rwr ∧
    (collect st v).rrd = st.rrd ∧ (collect st v).rcnt = st.rcnt ∧
    (collect st v).mode = st.mode ∧ (collect st v).sym_bit = st.sym_bit ∧
    (collect st v).out = st.out := by
  simp only [collect]
  split_ifs <;> simp

theorem collect_dcnt_le (st : Dec) (v : Nat) :
    (collect st v).dcnt ≤ st.dcnt + 1 := by
  simp only [collect]
  split_ifs <;> simp

theorem collect_dataArr_high (st : Dec) (v : Nat) (j : Nat)
    (hj : 5 ≤ j) (hd : st.dcnt ≤ 4) :
    (collect st v).dataArr j = st.dataArr j := by
  simp only [collect]
  split_ifs <;> simp
  all_goals
    intro hje
    omega

theorem maybeEmit_fields (st : Dec) :
    (maybeEmit st).ring = st.ring ∧ (maybeEmit st).rwr = st.rwr ∧
    (maybeEmit st).rrd = st.rrd ∧ (maybeEmit st).rcnt = st.rcnt ∧
    (maybeEmit st).sym_bit = st.sym_bit ∧ (maybeEmit st).dataArr = st.dataArr ∧
    (maybeEmit st).parity = st.parity := by
  simp only [maybeEmit]
  split_ifs <;> simp

theorem maybeEmit_dcnt (st : Dec) (h : st.dcnt ≤ 5) : (maybeEmit st).dcnt ≤ 4 := by
  simp only [maybeEmit]
  split_ifs with h5
  · simp
  · omega

theorem maybeEmit_mode (st : Dec) :
    ((maybeEmit st).mode = st.mode ∧ (maybeEmit st).dcnt = st.dcnt) ∨
    ((maybeEmit st).mode = Mode.HUNT ∧ (maybeEmit st).dcnt = 0) := by
  simp only [maybeEmit]
  split_ifs <;> simp

/-! Dispatch equations for one decoder step. -/

theorem decStep_hunt (st : Dec) (bit : Nat) (hm : st.mode = Mode.HUNT) :
    decStep st bit = huntLoop (rpush st bit) := by
  have hm2 : (rpush st bit).mode = Mode.HUNT := hm
  simp only [decStep]
  rw [hm2]

theorem decStep_locked (st : Dec) (bit : Nat) (hm : st.mode = Mode.LOCKED) :
    decStep st bit = lockedStep (rpush st bit) := by
  have hm2 : (rpush st bit).mode = Mode.LOCKED := hm
  simp only [decStep]
  rw [hm2]

theorem lockedStep_lt (st : Dec) (h : st.sym_bit + 1 < 10) :
    lockedStep st = { st with sym_bit := st.sym_bit + 1 } := by
  simp only [lockedStep]
  rw [if_pos]
  exact h

theorem lockedStep_pop (st : Dec) (h : ¬ st.sym_bit + 1 < 10) :
    lockedStep st =
      (match sym_decode (popN 10 { st with sym_bit := 0 }).1 with
       | none =>
         { (popN 10 { st with sym_bit := 0 }).2 with
           mode := Mode.HUNT, dcnt := 0, started := false }
       | some v => maybeEmit (collect (popN 10 { st with sym_bit := 0 }).2 v)) := by
  simp only [lockedStep]
  rw [if_neg]
  exact h

/-! Preservation of the reachable-state invariant. -/

theorem inv_init (d0 : Nat → Nat) : Inv d0 (initDec d0) := by
  simp [Inv, initDec]

theorem inv_decStep (d0 : Nat → Nat) (st : Dec) (bit : Nat) (h : Inv d0 st) :
    Inv d0 (decStep st bit) := by
  obtain ⟨hw, hc, hl, hd, hhigh⟩ := h
  cases hm : st.mode with
  | HUNT =>
    have hstep : decStep st bit = huntLoopF (st.rcnt + 1) (rpush st bit) :=
      decStep_hunt st bit hm
    have hw1 : (rpush st bit).rwr = (rpush st bit).rrd + (rpush st bit).rcnt := by
      simp [rpush]
      omega
    have hf1 : (rpush st bit).rcnt ≤ st.rcnt + 1 := by simp [rpush]
    obtain ⟨i1, i2, i3, i4, i5, i6, i7, i8⟩ :=
      huntLoopF_refines (st.rcnt + 1) (rpush st bit) hf1 hw1
    rw [← hstep] at i1 i2 i3 i4 i5 i6 i7 i8
    have hql : (ringList (rpush st bit)).length = st.rcnt + 1 := by
      rw [ringList_length]
      simp [rpush]
    have hrlen : (decStep st bit).rcnt = (huntSpec (ringList (rpush st bit))).1.length := by
      rw [← i1, ringList_length]
    refine ⟨i3, ?_, ?_, ?_, ?_⟩
    · cases hb : (huntSpec (ringList (rpush st bit))).2 with
      | true =>
        have := huntSpec_lock_len _ hb
        omega
      | false =>
        have := huntSpec_no_lock_len _ hb
        omega
    · intro hmode
      cases hb : (huntSpec (ringList (rpush st bit))).2 with
      | true =>
        obtain ⟨_, jsym, _, _, _⟩ := i7 hb
        have := huntSpec_lock_len _ hb
        constructor
        · rw [jsym]; omega
        · rw [jsym]; omega
      | false =>
        obtain ⟨jmode, _, _, _, _⟩ := i8 hb
        rw [jmode] at hmode
        simp [rpush] at hmode
        rw [hm] at hmode
        cases hmode
    · cases hb : (huntSpec (ringList (rpush st bit))).2 with
      | true =>
        obtain ⟨_, _, jd, _, _⟩ := i7 hb
        rw [jd]; omega
      | false =>
        obtain ⟨_, _, jd, _, _⟩ := i8 hb
        rw [jd]
        simp [rpush]
        exact hd
    · intro j hj
      rw [i6]
      simp [rpush]
      exact hhigh j hj
  | LOCKED =>
    obtain ⟨hsb, hrc⟩ := hl hm
    rw [decStep_locked st bit hm]
    by_cases hlt : (rpush st bit).sym_bit + 1 < 10
    · rw [lockedStep_lt _ hlt]
      have hlt2 : st.sym_bit + 1 < 10 := hlt
      refine ⟨?_, ?_, fun _ => ⟨?_, ?_⟩, ?_, fun j hj => ?_⟩
      · show st.rwr + 1 = st.rrd + (st.rcnt + 1)
        omega
      · show st.rcnt + 1 ≤ 9
        omega
      · show st.sym_bit + 1 ≤ 9
        omega
      · show st.rcnt + 1 = st.sym_bit + 1
        omega
      · show st.dcnt ≤ 4
        exact hd
      · show st.dataArr j = d0 j
        exact hhigh j hj
    · rw [lockedStep_pop _ hlt]
      have hsb9 : st.sym_bit = 9 := by
        have hlt2 : ¬ st.sym_bit + 1 < 10 := hlt
        omega
      set q : Dec := { rpush st bit with sym_bit := 0 } with hq
      have hq2 : (popN 10 q).2 = { q with rrd := q.rrd + 10, rcnt := q.rcnt - 10 } :=
        popN_snd 10 q
      cases hdec : sym_decode (popN 10 q).1 with
      | none =>
        simp only [hdec, hq2]
        refine ⟨?_, ?_, ?_, ?_, fun j hj => ?_⟩
        · show st.rwr + 1 = st.rrd + 10 + (st.rcnt + 1 - 10)
          omega
        · show st.rcnt + 1 - 10 ≤ 9
          omega
        · intro hmode
          cases hmode
        · show (0 : Nat) ≤ 4
          omega
        · show st.dataArr j = d0 j
          exact hhigh j hj
      | some v =>
        simp only [hdec, hq2]
        have hqd : ({ q with rrd := q.rrd + 10, rcnt := q.rcnt - 10 } : Dec).dcnt = st.dcnt := rfl
        obtain ⟨c1, c2, c3, c4, c5, c6, c7⟩ :=
          collect_fields { q with rrd := q.rrd + 10, rcnt := q.rcnt - 10 } v
        obtain ⟨m1, m2, m3, m4, m5, m6, m7⟩ :=
          maybeEmit_fields (collect { q with rrd := q.rrd + 10, rcnt := q.rcnt - 10 } v)
        refine ⟨?_, ?_, ?_, ?_, fun j hj => ?_⟩
        · rw [m2, m3, m4, c2, c3, c4]
          show st.rwr + 1 = st.rrd + 10 + (st.rcnt + 1 - 10)
          omega
        · rw [m4, c4]
          show st.rcnt + 1 - 10 ≤ 9
          omega
        · intro _
          refine ⟨?_, ?_⟩
          · rw [m5, c6]
            show (0 : Nat) ≤ 9
            omega
          · rw [m4, c4, m5, c6]
            show st.rcnt + 1 - 10 = 0
            omega
        · apply maybeEmit_dcnt
          show (collect { q with rrd := q.rrd + 10, rcnt := q.rcnt - 10 } v).dcnt ≤ 5
          have h2 := collect_dcnt_le { q with rrd := q.rrd + 10, rcnt := q.rcnt - 10 } v
          have h3 : ({ q with rrd := q.rrd + 10, rcnt := q.rcnt - 10 } : Dec).dcnt = st.dcnt := rfl
          omega
        · rw [m6]
          rw [collect_dataArr_high _ _ _ hj (by rw [hqd]; exact hd)]
          show st.dataArr j = d0 j
          exact hhigh j hj

theorem inv_run (d0 : Nat → Nat) (bits : List Nat) : Inv d0 (runBits d0 bits) := by
  rw [runBits]
  have : ∀ (l : List Nat) (st : Dec), Inv d0 st → Inv d0 (l.foldl decStep st) := by
    intro l
    induction l with
    | nil => intro st h; exact h
    | cons b t ih =>
      intro st h
      exact ih (decStep st b) (inv_decStep d0 st b h)
  exact this bits (initDec d0) (inv_init d0)

/-- Every per-spec two-digit rendering of a value at most 99 has exactly
two characters. -/
theorem twoDigit_length : ∀ n, n ≤ 99 → (twoDigit n).length = 2 := by
  decide

/-- C2: for every 10-bit group b[0..9], `sym_decode` assembles `v` from
the first 7 bits least-significant-bit-first (bit `i` has weight `2^i`),
computes `zeros = 7 - popcount v`, assembles the check value from the
last 3 bits most-significant-bit-first, and returns `v` (at most 127)
exactly when the check equals `zeros`; on any mismatch it returns
nothing. -/
theorem c2_decode_check_field : ∀ b0 b1 b2 b3 b4 b5 b6 b7 b8 b9 : Bool,
    (let b : List Nat := [cond b0 1 0, cond b1 1 0, cond b2 1 0, cond b3 1 0,
       cond b4 1 0, cond b5 1 0, cond b6 1 0, cond b7 1 0, cond b8 1 0, cond b9 1 0]
     let v : Nat := ∑ i ∈ Finset.range 7, b.getD i 0 * 2 ^ i
     v ≤ 127 ∧
       sym_decode b =
         (if b.getD 7 0 * 4 + b.getD 8 0 * 2 + b.getD 9 0 = 7 - popcount v
          then some v else none)) := by
  decide

/-- C6: for every value v in 0..99, decoding the 10-bit group produced
by the spec-modelled `sym_encode` succeeds and yields v. -/
theorem c6_encode_decode_roundtrip : ∀ v, v < 100 →
    sym_decode (sym_encode v) = some v := by
  decide

/-- Witness for C6 at the concrete value 57. -/
theorem c6_encode_decode_roundtrip_witness :
    57 < 100 ∧ sym_decode (sym_encode 57) = some 57 :=
  ⟨by decide, c6_encode_decode_roundtrip 57 (by decide)⟩

/-- C7: the frequency classifier is a pure total function of the sample
window: it returns 1 exactly when the Goertzel power estimate at the mark
coefficient exceeds the estimate at the space coefficient, returns 0
otherwise, and every window (no amplitude or signal-to-noise gating)
yields one of these two bits. -/
theorem c7_classifier_decision (cMark cSpace : ℚ) (s : List Int) :
    (classifyBit cMark cSpace s = 1 ∨ classifyBit cMark cSpace s = 0) ∧
    (classifyBit cMark cSpace s = 1 ↔ goertzel cMark s > goertzel cSpace s) ∧
    (classifyBit cMark cSpace s = 0 ↔ ¬ goertzel cMark s > goertzel cSpace s) := by
  simp only [classifyBit]
  split_ifs with h
  · simp [h]
  · simp [h]

/-- C9: after any sequence of classified bits, the ring occupancy count
never exceeds 10, the write cursor leads the read cursor by the occupancy
count, and the slot the next push writes differs from every slot holding
a not-yet-consumed bit, so a push never overwrites unread data in any
reachable state. -/
theorem c9_ring_never_overflows (d0 : Nat → Nat) (bits : List Nat) :
    (runBits d0 bits).rcnt ≤ 10 ∧
    (runBits d0 bits).rwr = (runBits d0 bits).rrd + (runBits d0 bits).rcnt ∧
    (∀ i, i < (runBits d0 bits).rcnt →
      (runBits d0 bits).rwr % 256 ≠ ((runBits d0 bits).rrd + i) % 256) := by
  obtain ⟨hw, hc, _, _, _⟩ := inv_run d0 bits
  refine ⟨by omega, hw, fun i hi => ?_⟩
  omega

/-- Witness for C9 on a concrete three-bit input. -/
theorem c9_ring_never_overflows_witness :
    (runBits (fun _ => 0) [1, 0, 1]).rcnt ≤ 10 ∧
    (runBits (fun _ => 0) [1, 0, 1]).rwr =
      (runBits (fun _ => 0) [1, 0, 1]).rrd + (runBits (fun _ => 0) [1, 0, 1]).rcnt ∧
    (∀ i, i < (runBits (fun _ => 0) [1, 0, 1]).rcnt →
      (runBits (fun _ => 0) [1, 0, 1]).rwr % 256 ≠
        ((runBits (fun _ => 0) [1, 0, 1]).rrd + i) % 256) :=
  c9_ring_never_overflows (fun _ => 0) [1, 0, 1]

/-- C10: after any sequence of classified bits, the collected-digit count
stays in 0..5, its guard `dcnt < 16` is equivalent to the capacity-5
bound, and the collection slots 5..15 still hold their initial
(never-written) contents. -/
theorem c10_collection_capacity (d0 : Nat → Nat) (bits : List Nat) :
    (runBits d0 bits).dcnt ≤ 5 ∧
    ((runBits d0 bits).dcnt < 16 ↔ (runBits d0 bits).dcnt < 5) ∧
    (∀ j, 5 ≤ j → j < 16 → (runBits d0 bits).dataArr j = d0 j) := by
  obtain ⟨_, _, _, hd, hh⟩ := inv_run d0 bits
  exact ⟨by omega, by omega, fun j hj _ => hh j hj⟩

/-- Folding fewer samples than fit in the window only fills the window
buffer and leaves the decoder untouched. -/
theorem foldl_sampleStep_small (cMark cSpace : ℚ) : ∀ (xs : List Int) (t : Top),
    t.sb.length + xs.length < 20 →
    xs.foldl (sampleStep cMark cSpace) t = { t with sb := t.sb ++ xs } := by
  intro xs
  induction xs with
  | nil => intro t _; simp
  | cons x rest ih =>
    intro t h
    have hlen : (t.sb ++ [x]).length < 20 := by simp; simp at h; omega
    have hstep : sampleStep cMark cSpace t x = { t with sb := t.sb ++ [x] } := by
      simp only [sampleStep]
      rw [if_pos hlen]
    rw [List.foldl_cons, hstep, ih]
    · simp
    · simp
      simp at h
      omega

/-- The window buffer length always equals the processed sample count
modulo the window size. -/
theorem foldl_sampleStep_sb_len (cMark cSpace : ℚ) : ∀ (xs : List Int) (t : Top),
    t.sb.length < 20 →
    (xs.foldl (sampleStep cMark cSpace) t).sb.length = (t.sb.length + xs.length) % 20 := by
  intro xs
  induction xs with
  | nil =>
    intro t h
    simp [Nat.mod_eq_of_lt h]
  | cons x rest ih =>
    intro t h
    rw [List.foldl_cons]
    by_cases hlen : (t.sb ++ [x]).length < 20
    · have hstep : sampleStep cMark cSpace t x = { t with sb := t.sb ++ [x] } := by
        simp only [sampleStep]
        rw [if_pos hlen]
      rw [hstep, ih _ (by simpa using hlen)]
      simp at hlen
      simp
      omega
    · have hstep : sampleStep cMark cSpace t x =
          { sb := [], dec := decStep t.dec (classifyBit cMark cSpace (t.sb ++ [x])) } := by
        simp only [sampleStep]
        rw [if_neg hlen]
      rw [hstep, ih _ (by simp)]
      simp at hlen
      simp
      omega

/-- C8: a trailing partial sample window is silently dropped: the whole
run produces exactly the decoder state and outputs of the run over the
longest whole-window prefix, so no bit is classified from the partial
window and nothing is decoded or emitted for it. -/
theorem c8_truncated_window_dropped (cMark cSpace : ℚ) (d0 : Nat → Nat)
    (samples : List Int) :
    (runSamples cMark cSpace d0 samples).dec =
      (runSamples cMark cSpace d0 (samples.take (20 * (samples.length / 20)))).dec := by
  have hsplit :
      samples.take (20 * (samples.length / 20)) ++ samples.drop (20 * (samples.length / 20)) =
        samples := List.take_append_drop _ _
  rw [runSamples, runSamples]
  conv_lhs => rw [← hsplit]
  rw [List.foldl_append]
  have hlen0 : (samples.take (20 * (samples.length / 20))).length = 20 * (samples.length / 20) := by
    rw [List.length_take]
    omega
  have hsb : ((samples.take (20 * (samples.length / 20))).foldl (sampleStep cMark cSpace)
      { sb := [], dec := initDec d0 } : Top).sb.length = 0 := by
    rw [foldl_sampleStep_sb_len cMark cSpace _ _ (by simp), hlen0]
    simp
  have hdcnt : ((samples.drop (20 * (samples.length / 20))).length) < 20 := by
    rw [List.length_drop]
    omega
  rw [foldl_sampleStep_small cMark cSpace _ _ (by omega)]

/-- C1: in HUNT mode, processing one newly classified bit appended to the
ring behaves exactly as the spec's SEARCHING scan `huntSpec` on the
abstract queue: while at least ten bits remain the oldest ten are decoded
non-destructively; a phasing-symbol hit consumes exactly those ten bits,
locks, and resets the bit-offset counter and all collection state;
otherwise only the single oldest bit is discarded and the scan retries
until fewer than ten bits remain or a lock occurs. -/
theorem c1_hunt_scan (st : Dec) (bit : Nat) (hm : st.mode = Mode.HUNT)
    (hw : st.rwr = st.rrd + st.rcnt) (hc : st.rcnt < 256) :
    ringList (decStep st bit) = (huntSpec (ringList st ++ [bit])).1 ∧
    ((huntSpec (ringList st ++ [bit])).2 = true →
      (decStep st bit).mode = Mode.LOCKED ∧ (decStep st bit).sym_bit = 0 ∧
      (decStep st bit).dcnt = 0 ∧ (decStep st bit).started = false ∧
      (decStep st bit).parity = 0) ∧
    ((huntSpec (ringList st ++ [bit])).2 = false →
      (decStep st bit).mode = Mode.HUNT ∧ (decStep st bit).dcnt = st.dcnt ∧
      (decStep st bit).started = st.started ∧ (decStep st bit).parity = st.parity ∧
      (ringList (decStep st bit)).length < 10) ∧
    (decStep st bit).out = st.out := by
  rw [decStep_hunt st bit hm]
  simp only [huntLoop]
  have hpush : ringList (rpush st bit) = ringList st ++ [bit] :=
    ringList_rpush st bit hw hc
  have hw1 : (rpush st bit).rwr = (rpush st bit).rrd + (rpush st bit).rcnt := by
    simp [rpush]
    omega
  obtain ⟨i1, i2, i3, i4, i5, i6, i7, i8⟩ :=
    huntLoopF_refines (rpush st bit).rcnt (rpush st bit) (le_refl _) hw1
  rw [hpush] at i1 i7 i8
  refine ⟨i1, i7, fun hb => ?_, i5⟩
  obtain ⟨jmode, _, jd, js, jp⟩ := i8 hb
  have hmode : (rpush st bit).mode = Mode.HUNT := hm
  refine ⟨by rw [jmode, hmode], jd, js, jp, ?_⟩
  rw [i1]
  exact huntSpec_no_lock_len _ hb

/-- Witness for C1: one bit pushed into the freshly initialized decoder. -/
theorem c1_hunt_scan_witness :
    ringList (decStep (initDec fun _ => 0) 1) =
      (huntSpec (ringList (initDec fun _ => 0) ++ [1])).1 ∧
    ((huntSpec (ringList (initDec fun _ => 0) ++ [1])).2 = true →
      (decStep (initDec fun _ => 0) 1).mode = Mode.LOCKED ∧
      (decStep (initDec fun _ => 0) 1).sym_bit = 0 ∧
      (decStep (initDec fun _ => 0) 1).dcnt = 0 ∧
      (decStep (initDec fun _ => 0) 1).started = false ∧
      (decStep (initDec fun _ => 0) 1).parity = 0) ∧
    ((huntSpec (ringList (initDec fun _ => 0) ++ [1])).2 = false →
      (decStep (initDec fun _ => 0) 1).mode = Mode.HUNT ∧
      (decStep (initDec fun _ => 0) 1).dcnt = (initDec fun _ => 0).dcnt ∧
      (decStep (initDec fun _ => 0) 1).started = (initDec fun _ => 0).started ∧
      (decStep (initDec fun _ => 0) 1).parity = (initDec fun _ => 0).parity ∧
      (ringList (decStep (initDec fun _ => 0) 1)).length < 10) ∧
    (decStep (initDec fun _ => 0) 1).out = (initDec fun _ => 0).out :=
  c1_hunt_scan (initDec fun _ => 0) 1 rfl rfl (by decide)

/-- C3: one collector step on a reachable collection state (at most four
digits collected).  Before `started`, values above 99 are ignored; the
first value at most 99 sets `started`, zeroes the alternation counter and
is itself a READ; afterwards an even counter is a READ that appends
exactly when the value is at most 99 and fewer than five digits are
collected, an odd counter is a SKIP that discards regardless, and the
counter is incremented after every symbol. -/
theorem c3_alternating_collector (st : Dec) (v : Nat) (hd : st.dcnt ≤ 4) :
    (st.started = false → 99 < v → collect st v = st) ∧
    (st.started = false → v ≤ 99 →
      collect st v =
        { st with
          started := true
          parity := 1
          dataArr := fun j => if j = st.dcnt then v else st.dataArr j
          dcnt := st.dcnt + 1 }) ∧
    (st.started = true → st.parity % 2 = 0 →
      collect st v =
        (if v ≤ 99 ∧ st.dcnt < 5 then
          { st with
            parity := st.parity + 1
            dataArr := fun j => if j = st.dcnt then v else st.dataArr j
            dcnt := st.dcnt + 1 }
         else { st with parity := st.parity + 1 })) ∧
    (st.started = true → st.parity % 2 = 1 →
      collect st v = { st with parity := st.parity + 1 }) := by
  have h16 : st.dcnt < 16 := by omega
  have h5 : st.dcnt < 5 := by omega
  refine ⟨?_, ?_, ?_, ?_⟩
  · intro hs hv
    simp [collect, hs, hv]
  · intro hs hv
    have hnv : ¬ 99 < v := by omega
    simp [collect, hs, hnv, hv, h16]
  · intro hs hp
    simp only [collect, hs, h16, h5]
    by_cases hv : v ≤ 99
    · simp [hs, hp, hv, h16, h5]
    · simp [hs, hp, hv]
  · intro hs hp
    have hp0 : ¬ st.parity % 2 = 0 := by omega
    simp [collect, hs, hp0]

/-- Witness for C3 at a concrete mid-collection state and value 55. -/
theorem c3_alternating_collector_witness :
    (let st : Dec :=
      { ring := fun _ => 0
        rwr := 0
        rrd := 0
        rcnt := 0
        mode := Mode.LOCKED
        sym_bit := 0
        dataArr := fun _ => 0
        dcnt := 2
        started := true
        parity := 4
        out := [] }
     (st.started = false → 99 < 55 → collect st 55 = st) ∧
     (st.started = false → 55 ≤ 99 →
       collect st 55 =
         { st with
           started := true
           parity := 1
           dataArr := fun j => if j = st.dcnt then 55 else st.dataArr j
           dcnt := st.dcnt + 1 }) ∧
     (st.started = true → st.parity % 2 = 0 →
       collect st 55 =
         (if 55 ≤ 99 ∧ st.dcnt < 5 then
           { st with
             parity := st.parity + 1
             dataArr := fun j => if j = st.dcnt then 55 else st.dataArr j
             dcnt := st.dcnt + 1 }
          else { st with parity := st.parity + 1 })) ∧
     (st.started = true → st.parity % 2 = 1 →
       collect st 55 = { st with parity := st.parity + 1 })) :=
  c3_alternating_collector _ 55 (by decide)

/-- C4 (amended): while LOCKED, the first nine bits of a symbol are only
accumulated (no decode, no pop, no output), and the tenth bit triggers a
decode of exactly the ten accumulated bits; if that decode fails, the
state returns to SEARCHING with the started flag and the collected digit
sequence discarded and no partial output produced, while the alternation
counter keeps its value (it is reset again before its next use, at lock
acquisition). -/
theorem c4_locked_group_fail (st : Dec) (bit : Nat)
    (hm : st.mode = Mode.LOCKED) (hw : st.rwr = st.rrd + st.rcnt)
    (hrc : st.rcnt = st.sym_bit) (_hsb : st.sym_bit ≤ 9) (hc : st.rcnt < 256) :
    (st.sym_bit + 1 < 10 →
      (decStep st bit).mode = Mode.LOCKED ∧
      (decStep st bit).sym_bit = st.sym_bit + 1 ∧
      ringList (decStep st bit) = ringList st ++ [bit] ∧
      (decStep st bit).out = st.out ∧
      (decStep st bit).dcnt = st.dcnt ∧
      (decStep st bit).started = st.started ∧
      (decStep st bit).parity = st.parity) ∧
    (st.sym_bit = 9 →
      sym_decode (ringList st ++ [bit]) = none →
      (decStep st bit).mode = Mode.HUNT ∧
      (decStep st bit).dcnt = 0 ∧
      (decStep st bit).started = false ∧
      (decStep st bit).parity = st.parity ∧
      (decStep st bit).out = st.out ∧
      (decStep st bit).rcnt = 0) := by
  rw [decStep_locked st bit hm]
  constructor
  · intro hlt
    have hlt2 : (rpush st bit).sym_bit + 1 < 10 := hlt
    rw [lockedStep_lt _ hlt2]
    refine ⟨hm, rfl, ?_, rfl, rfl, rfl, rfl⟩
    show ringList (rpush st bit) = ringList st ++ [bit]
    exact ringList_rpush st bit hw hc
  · intro h9 hdec
    have hlt2 : ¬ (rpush st bit).sym_bit + 1 < 10 := by
      show ¬ st.sym_bit + 1 < 10
      omega
    rw [lockedStep_pop _ hlt2]
    have h10 : (10 : Nat) ≤ ({ rpush st bit with sym_bit := 0 } : Dec).rcnt := by
      show 10 ≤ st.rcnt + 1
      omega
    have hfst : (popN 10 ({ rpush st bit with sym_bit := 0 } : Dec)).1 =
        ringList st ++ [bit] := by
      rw [popN_fst 10 _ h10]
      have he : ringList ({ rpush st bit with sym_bit := 0 } : Dec) =
          ringList (rpush st bit) := rfl
      rw [he, ringList_rpush st bit hw hc]
      apply List.take_of_length_le
      have : (ringList st).length = st.rcnt := ringList_length st
      simp
      omega
    rw [hfst, hdec, popN_snd 10]
    refine ⟨rfl, rfl, rfl, rfl, rfl, ?_⟩
    show st.rcnt + 1 - 10 = 0
    omega

/-- Witness for C4 at a concrete LOCKED state one bit short of a group,
fed a bit that completes an all-zero (invalid) group. -/
theorem c4_locked_group_fail_witness :
    (let st : Dec :=
      { ring := fun _ => 0
        rwr := 9
        rrd := 0
        rcnt := 9
        mode := Mode.LOCKED
        sym_bit := 9
        dataArr := fun _ => 0
        dcnt := 1
        started := true
        parity := 3
        out := [] }
     (st.sym_bit + 1 < 10 →
       (decStep st 0).mode = Mode.LOCKED ∧
       (decStep st 0).sym_bit = st.sym_bit + 1 ∧
       ringList (decStep st 0) = ringList st ++ [0] ∧
       (decStep st 0).out = st.out ∧
       (decStep st 0).dcnt = st.dcnt ∧
       (decStep st 0).started = st.started ∧
       (decStep st 0).parity = st.parity) ∧
     (st.sym_bit = 9 →
       sym_decode (ringList st ++ [0]) = none →
       (decStep st 0).mode = Mode.HUNT ∧
       (decStep st 0).dcnt = 0 ∧
       (decStep st 0).started = false ∧
       (decStep st 0).parity = st.parity ∧
       (decStep st 0).out = st.out ∧
       (decStep st 0).rcnt = 0)) :=
  c4_locked_group_fail _ 0 rfl rfl rfl (by decide) (by decide)

/-- C4 counterexample: a concrete run that locks, READs the value 1
(alternation counter becomes 1, one digit collected) and then receives an
invalid group while LOCKED.  The code returns to SEARCHING discarding
`started` and the digit count, but the alternation counter is not
discarded: it still holds 1, contradicting the claim that all collection
state (started flag, alternation counter, output sequence) is
discarded. -/
theorem c4_parity_not_discarded :
    (runBits (fun _ => 0) (dxGroup ++ groupOne)).mode = Mode.LOCKED ∧
    (runBits (fun _ => 0) (dxGroup ++ groupOne)).parity = 1 ∧
    (runBits (fun _ => 0) (dxGroup ++ groupOne)).dcnt = 1 ∧
    sym_decode badGroup = none ∧
    (runBits (fun _ => 0) exC4).mode = Mode.HUNT ∧
    (runBits (fun _ => 0) exC4).started = false ∧
    (runBits (fun _ => 0) exC4).dcnt = 0 ∧
    (runBits (fun _ => 0) exC4).parity = 1 := by
  decide

/-- C5 (amended): when exactly five digits (each at most 99) are
collected, the rendered concatenation has exactly ten characters, the
leading character is dropped exactly when it is a zero digit, one stdout
line `ATIS: <digits>` and one datagram `<digits>\n` are appended to the
output, and the state returns to SEARCHING with the started flag and the
digit count cleared, while the alternation counter keeps its value (it is
reset again before its next use, at lock acquisition). -/
theorem c5_emit_normalize (st : Dec) (hd : st.dcnt = 5)
    (hv : ∀ i, i < 5 → st.dataArr i ≤ 99) :
    (renderDigits st).length = 10 ∧
    stripZero (renderDigits st) =
      (if (renderDigits st).get ⟨0⟩ = '0' then (renderDigits st).drop 1
       else renderDigits st) ∧
    maybeEmit st =
      { st with
        out := st.out ++
          [{ line := "ATIS: " ++ stripZero (renderDigits st) ++ "\n"
             dgram := stripZero (renderDigits st) ++ "\n" }]
        mode := Mode.HUNT
        dcnt := 0
        started := false } := by
  have t0 := twoDigit_length _ (hv 0 (by omega))
  have t1 := twoDigit_length _ (hv 1 (by omega))
  have t2 := twoDigit_length _ (hv 2 (by omega))
  have t3 := twoDigit_length _ (hv 3 (by omega))
  have t4 := twoDigit_length _ (hv 4 (by omega))
  have hlen : (renderDigits st).length = 10 := by
    simp [renderDigits, show List.range 5 = [0, 1, 2, 3, 4] from rfl,
      String.length_append, t0, t1, t2, t3, t4]
  refine ⟨hlen, ?_, ?_⟩
  · simp [stripZero, hlen]
  · simp only [maybeEmit, if_pos hd]

/-- Witness for C5 at a concrete five-digit collection state whose
rendering starts with a zero digit. -/
theorem c5_emit_normalize_witness :
    (let st : Dec :=
      { ring := fun _ => 0
        rwr := 0
        rrd := 0
        rcnt := 0
        mode := Mode.LOCKED
        sym_bit := 0
        dataArr := fun j =>
          if j = 0 then 1 else if j = 1 then 23 else if j = 2 then 45
          else if j = 3 then 67 else if j = 4 then 89 else 0
        dcnt := 5
        started := true
        parity := 9
        out := [] }
     (renderDigits st).length = 10 ∧
     stripZero (renderDigits st) =
       (if (renderDigits st).get ⟨0⟩ = '0' then (renderDigits st).drop 1
        else renderDigits st) ∧
     maybeEmit st =
       { st with
         out := st.out ++
           [{ line := "ATIS: " ++ stripZero (renderDigits st) ++ "\n"
              dgram := stripZero (renderDigits st) ++ "\n" }]
         mode := Mode.HUNT
         dcnt := 0
         started := false }) :=
  c5_emit_normalize _ rfl (by decide)

set_option maxRecDepth 200000 in
/-- C5 counterexample: a concrete run that collects 1,23,45,67,89,
renders "0123456789", normalizes it to "123456789", emits one line and
one datagram, and returns to SEARCHING — but the alternation counter
still holds 9 afterwards, contradicting the claim that the collection
state (which per the spec includes the alternation counter) is
cleared. -/
theorem c5_parity_not_cleared :
    (runBits (fun _ => 0) exC5).out =
      [{ line := "ATIS: 123456789\n", dgram := "123456789\n" }] ∧
    (runBits (fun _ => 0) exC5).mode = Mode.HUNT ∧
    (runBits (fun _ => 0) exC5).started = false ∧
    (runBits (fun _ => 0) exC5).dcnt = 0 ∧
    (runBits (fun _ => 0) exC5).parity = 9 := by
  decide

/-- Witness for C10 on a concrete three-bit input. -/
theorem c10_collection_capacity_witness :
    (runBits (fun _ => 7) [1, 1, 0]).dcnt ≤ 5 ∧
    ((runBits (fun _ => 7) [1, 1, 0]).dcnt < 16 ↔
      (runBits (fun _ => 7) [1, 1, 0]).dcnt < 5) ∧
    (∀ j, 5 ≤ j → j < 16 → (runBits (fun _ => 7) [1, 1, 0]).dataArr j = 7) :=
  c10_collection_capacity (fun _ => 7) [1, 1, 0]

end ATIS
